import Mathlib

/-!
Verification development for the thread-condenser pipeline.

Python strings are modelled as `List Char` (`Str`); JSON-like metadata
mappings as insertion-ordered association lists; numeric scores as exact
rationals.
-/

namespace ThreadCondenser

abbrev Str := List Char

/-- A JSON-ish value as stored in metadata mappings / notification payloads.
`vnone` models Python `None`; `dict` models a nested mapping. -/
inductive PyVal where
  | str (s : Str)
  | vnone
  | dict (entries : List (Str × PyVal))
deriving Repr

mutual

/-- Structural equality on payload values (models Python `==` on the JSON-ish
values that occur in notification payloads; mappings are compared in order,
which coincides with Python for the string-valued identifier fields this
development compares). -/
def pvBeq : PyVal → PyVal → Bool
  | .str a, .str b => a == b
  | .vnone, .vnone => true
  | .dict a, .dict b => pvEntriesBeq a b
  | _, _ => false

def pvEntriesBeq : List (Str × PyVal) → List (Str × PyVal) → Bool
  | [], [] => true
  | (k₁, v₁) :: r₁, (k₂, v₂) :: r₂ => k₁ == k₂ && pvBeq v₁ v₂ && pvEntriesBeq r₁ r₂
  | _, _ => false

end

/-- Python truthiness of a payload value (`bool(v)`): `None` and the empty
string / empty mapping are falsy. -/
def truthy : PyVal → Bool
  | .str s => !s.isEmpty
  | .vnone => false
  | .dict d => !d.isEmpty

/-- `d.get(k)` on a mapping: `none` models an absent key (Python `None`
returned by `.get`). -/
def aget (d : List (Str × PyVal)) (k : Str) : Option PyVal :=
  d.lookup k

/-- Truthiness of a `d.get(k)` result (absent key is falsy). -/
def otruthy : Option PyVal → Bool
  | none => false
  | some v => truthy v

/-- Python `a or b` over two `.get` results. -/
def pyOrV (a b : Option PyVal) : Option PyVal :=
  if otruthy a then a else b

/-- Python `d[k] = v` on an insertion-ordered mapping: replaces the value in
place if the key exists, otherwise appends the pair. -/
def dset (d : List (Str × PyVal)) (k : Str) (v : PyVal) : List (Str × PyVal) :=
  match d with
  | [] => [(k, v)]
  | (k', v') :: rest => if k' = k then (k, v) :: rest else (k', v') :: dset rest k v

/-- Python `d.setdefault(k, v)`: keyed on key *presence*, not truthiness. -/
def pySetdefault (d : List (Str × PyVal)) (k : Str) (v : PyVal) : List (Str × PyVal) :=
  if (d.lookup k).isSome then d else d ++ [(k, v)]

/-- Python `str(v)` as used when a metadata value is interpolated into text or
copied into a string field. Exact for strings and `None`; nested mappings
(which never occur in these positions in the repository) get a placeholder. -/
def pyStr : PyVal → Str
  | .str s => s
  | .vnone => "None".data
  | .dict _ => "dict".data

/-! ### Ranker (src/app/pipeline/rank.py) -/

/-- `app.schemas.SupportRef`: one evidence reference of an extracted item. -/
structure SupportRef where
  platform : Str
  native_id : Str
  msg_id : Str
  quote : Str
  url : Option Str
deriving DecidableEq, Repr

/-- One extracted item (Decision / Risk / ActionItem / OpenQuestion). The
ranker reads only `confidence` and `supporting_msgs`; the item-kind-specific
fields (title, summary, owner, …) are carried opaquely in `payload`. -/
structure ExtractedItem where
  confidence : ℚ
  supporting_msgs : List SupportRef
  payload : Str
deriving DecidableEq, Repr

/-- `app.schemas.CondenseResult` restricted to what ranking and provenance
linking touch: the four item categories. The remaining fields (platform,
people_map, provenance, changelog) are carried opaquely in `rest`. -/
structure CondenseResult where
  decisions : List ExtractedItem
  risks : List ExtractedItem
  actions : List ExtractedItem
  open_questions : List ExtractedItem
  rest : Str
deriving DecidableEq, Repr

/-- `reactions_index.get(msg_id, 0)` on the `dict[str, int]` reactions index. -/
def rixGet (reactions_index : List (Str × Int)) (k : Str) : Int :=
  (reactions_index.lookup k).getD 0

/-- `sum(reactions_index.get(ref.msg_id, 0) for ref in item.supporting_msgs)`. -/
def agreeSum (reactions_index : List (Str × Int)) (item : ExtractedItem) : Int :=
  (item.supporting_msgs.map (fun ref => rixGet reactions_index ref.msg_id)).sum

/-- `score_item` from src/app/pipeline/rank.py. Numeric values are modelled
as exact rationals; `0.05` is `5/100`. The Python signature declares defaults
`seniority_weight=1.0, recency_bonus=0.0, contradiction_penalty=0.0`; callers
relying on them pass `1 0 0` here. -/
def score_item (item : ExtractedItem) (reactions_index : List (Str × Int))
    (seniority_weight recency_bonus contradiction_penalty : ℚ) : ℚ :=
  let base := item.confidence
  let agree := agreeSum reactions_index item
  let score := base + (5 / 100) * (agree : ℚ) + (5 / 100) * seniority_weight
    + recency_bonus - contradiction_penalty
  max 0 (min 1 score)

/-- Insert into a descending-by-confidence list, before the first element it
ties or beats: together with `sortDesc` this is the stable descending sort
performed by Python's `list.sort(key=…confidence, reverse=True)`. -/
def insortDesc (x : ExtractedItem) : List ExtractedItem → List ExtractedItem
  | [] => [x]
  | y :: ys => if y.confidence ≤ x.confidence then x :: y :: ys else y :: insortDesc x ys

/-- Stable descending sort by `confidence`. -/
def sortDesc : List ExtractedItem → List ExtractedItem
  | [] => []
  | x :: xs => insortDesc x (sortDesc xs)

/-- One iteration of the `for attr in [...]` loop of `rank_and_filter`: score
every item (storing the score as its confidence), keep those scoring at least
`threshold`, sort the survivors by confidence descending (stably). -/
def rankCategory (reactions_index : List (Str × Int)) (threshold : ℚ)
    (items : List ExtractedItem) : List ExtractedItem :=
  let scored := items.map (fun it =>
    { it with confidence := score_item it reactions_index 1 0 0 })
  sortDesc (scored.filter (fun it => threshold ≤ it.confidence))

/-- `rank_and_filter` from src/app/pipeline/rank.py: processes the four
categories independently. -/
def rank_and_filter (result : CondenseResult) (reactions_index : List (Str × Int))
    (threshold : ℚ) : CondenseResult :=
  { result with
    decisions := rankCategory reactions_index threshold result.decisions
    risks := rankCategory reactions_index threshold result.risks
    actions := rankCategory reactions_index threshold result.actions
    open_questions := rankCategory reactions_index threshold result.open_questions }

/-! ### Canonical store rows (src/app/models.py, the fields the pipeline reads) -/

/-- `app.models.Message`. `thread_id`/`author_user_id` are surrogate keys
(modelled as naturals), `created_at` as an integer timestamp. -/
structure Message where
  thread_id : Nat
  platform : Str
  source_msg_id : Str
  parent_msg_id : Option Str
  author_user_id : Option Nat
  text : Str
  text_hash : Str
  reactions_json : List (Str × Int)
  metadata_json : List (Str × PyVal)
  created_at : Int

def canonicalKey : Str := "canonical_id".data

/-- `metadata.get("canonical_id") or f"{platform}:{source_msg_id}"`, as used
by the segmenter and provenance linker to key a message. -/
def canonicalFrom (metadata : List (Str × PyVal)) (platform source_msg_id : Str) : Str :=
  match aget metadata canonicalKey with
  | some v => if truthy v then pyStr v else platform ++ ":".data ++ source_msg_id
  | none => platform ++ ":".data ++ source_msg_id

/-! ### Python string primitives -/

/-- Fuel-driven core of Python `str.replace`: replaces non-overlapping
occurrences left to right. Any fuel at least `s.length` yields the fixpoint
(each step consumes at least one character). The empty pattern never occurs
in the repository and is treated as a no-op here. -/
def pyReplaceGo (pat repl : Str) : Nat → Str → Str
  | _, [] => []
  | 0, s => s
  | fuel + 1, c :: t =>
    if pat ≠ [] ∧ pat.isPrefixOf (c :: t) then
      repl ++ pyReplaceGo pat repl fuel ((c :: t).drop pat.length)
    else
      c :: pyReplaceGo pat repl fuel t

/-- Python `s.replace(pat, repl)`. -/
def pyReplace (pat repl s : Str) : Str :=
  pyReplaceGo pat repl s.length s

/-- The characters stripped by Python `str.strip()` (the ASCII whitespace
relevant to chat text). -/
def isPySpace (c : Char) : Bool :=
  c = ' ' ∨ c = '\t' ∨ c = '\n' ∨ c = '\r' ∨ c = '\x0b' ∨ c = '\x0c'

/-- Python `s.strip()`. -/
def pyStripWS (s : Str) : Str :=
  ((s.dropWhile isPySpace).reverse.dropWhile isPySpace).reverse

/-! ### Preprocessor (src/app/pipeline/preprocess.py) -/

/-- `_normalize_text` from src/app/pipeline/preprocess.py (`message.text` is
non-null in the model, as in the schema). -/
def normalize_text (msg : Message) : Str :=
  let text := msg.text
  let text := pyReplace "&lt;".data "<".data text
  let text := pyReplace "&gt;".data ">".data text
  let text := pyReplace "&amp;".data "&".data text
  let text :=
    if msg.platform = "msteams".data ∨ msg.platform = "outlook".data then
      pyReplace "\r".data "".data text
    else text
  pyStripWS text

/-- The per-message body of the `for msg in msgs` loop of `preprocess_thread`:
normalizes the text and backfills `canonical_id` (kept when already truthy)
and `source_msg_id` into the metadata mapping. -/
def preprocessMessage (msg : Message) : Message :=
  let text := normalize_text msg
  let metadata := msg.metadata_json
  let canonical : PyVal :=
    match aget metadata canonicalKey with
    | some v =>
      if truthy v then v else .str (msg.platform ++ ":".data ++ msg.source_msg_id)
    | none => .str (msg.platform ++ ":".data ++ msg.source_msg_id)
  let metadata := dset metadata canonicalKey canonical
  let metadata := dset metadata "source_msg_id".data (.str msg.source_msg_id)
  { msg with
    text := text
    metadata_json := metadata }

/-- Stable ascending insertion by `created_at` (the `ORDER BY created_at ASC`
of the preprocessor's query). -/
def insortCreated (x : Message) : List Message → List Message
  | [] => [x]
  | y :: ys => if x.created_at ≤ y.created_at then x :: y :: ys else y :: insortCreated x ys

def sortByCreated : List Message → List Message
  | [] => []
  | x :: xs => insortCreated x (sortByCreated xs)

/-- `preprocess_thread` from src/app/pipeline/preprocess.py: the thread's
messages in `created_at` order, each normalized in place. -/
def preprocess_thread (db : List Message) (thread_id : Nat) : List Message :=
  (sortByCreated (db.filter (fun m => m.thread_id = thread_id))).map preprocessMessage

/-! ### Ingestion persistence (src/app/pipeline/ingest.py) -/

/-- The metadata handling of `_persist_message`: `metadata = metadata or {}`
followed by `metadata.setdefault("canonical_id", f"{platform}:{native_id}")`
(`or {}` maps a falsy mapping to `{}`, on which `setdefault` agrees with the
model). -/
def persistMeta (platform native_id : Str) (metadata : List (Str × PyVal)) : List (Str × PyVal) :=
  pySetdefault metadata canonicalKey (.str (platform ++ ":".data ++ native_id))

/-- The query-update-or-insert core of `_persist_message`: the first row
matching `(thread_id, source_msg_id)` is updated in place; with no match a
fresh row is appended. -/
def upsertRow (thread_id : Nat) (native_id : Str) (fresh : Message)
    (upd : Message → Message) : List Message → List Message
  | [] => [fresh]
  | row :: rest =>
    if row.thread_id = thread_id ∧ row.source_msg_id = native_id then
      upd row :: rest
    else
      row :: upsertRow thread_id native_id fresh upd rest

/-- `_persist_message` from src/app/pipeline/ingest.py. `sha1hex` abstracts
`hashlib.sha1(...).hexdigest()` (an external primitive). -/
def persist_message (sha1hex : Str → Str) (db : List Message) (thread_id : Nat)
    (platform native_id : Str) (parent_id : Option Str) (user : Option Nat)
    (text : Str) (created_at : Int) (reactions : Option (List (Str × Int)))
    (metadata : List (Str × PyVal)) : List Message :=
  let md := persistMeta platform native_id metadata
  let text_hash := sha1hex text
  upsertRow thread_id native_id
    { thread_id := thread_id, platform := platform, source_msg_id := native_id,
      parent_msg_id := parent_id, author_user_id := user, text := text,
      text_hash := text_hash, reactions_json := reactions.getD [],
      metadata_json := md, created_at := created_at }
    (fun row =>
      { row with
        text := text
        text_hash := text_hash
        parent_msg_id := parent_id
        author_user_id := user
        reactions_json := reactions.getD []
        metadata_json := md
        created_at := created_at })
    db

/-- Lifts `payload.get(k)` results into metadata values. -/
def optV : Option Str → PyVal
  | some s => .str s
  | none => .vnone

/-- The per-message permalink built by `_ingest_slack`
(`ts.replace(".", "p")` embedded in the client URL). -/
def slackPermalink (team_id channel_id ts : Str) : Str :=
  "https://app.slack.com/client/".data ++ team_id ++ "/".data ++ channel_id
    ++ "/".data ++ pyReplace ".".data "p".data ts

/-- The metadata mapping `_ingest_slack` passes to `_persist_message`. -/
def slackMessageMetadata (team_id channel_id ts : Str) (thread_ts : Option Str) :
    List (Str × PyVal) :=
  [("team_id".data, .str team_id), ("channel_id".data, .str channel_id),
   ("permalink".data, .str (slackPermalink team_id channel_id ts)),
   ("thread_ts".data, optV thread_ts)]

/-- The metadata mapping `_ingest_teams` passes to `_persist_message`. -/
def teamsMessageMetadata (webUrl : Option Str) (raw_html : Str)
    (createdDateTime lastModifiedDateTime : Option Str) : List (Str × PyVal) :=
  [("webUrl".data, optV webUrl), ("raw_html".data, .str raw_html),
   ("createdDateTime".data, optV createdDateTime),
   ("lastModifiedDateTime".data, optV lastModifiedDateTime)]

/-- The metadata mapping `_ingest_outlook` passes to `_persist_message`
(the recipient lists are opaque payload values). -/
def outlookMessageMetadata (webLink internetMessageId conversationIndex : Option Str)
    (toRecipients ccRecipients : PyVal) (raw_html : Str) : List (Str × PyVal) :=
  [("webLink".data, optV webLink), ("internetMessageId".data, optV internetMessageId),
   ("conversationIndex".data, optV conversationIndex),
   ("toRecipients".data, toRecipients), ("ccRecipients".data, ccRecipients),
   ("raw_html".data, .str raw_html)]

/-! ### Tokenizer and segmenter (src/app/llm/tokenization.py, src/app/pipeline/segment.py) -/

/-- `count_tokens` from src/app/llm/tokenization.py, in its deterministic
fallback branch `max(1, len(text) // 4 + 1)` (the `tiktoken` branch is an
optional external capability; spec §6 sanctions the character-length
heuristic). The model identifier is unused by the fallback. -/
def count_tokens (text : Str) (model : Str) : Nat :=
  max 1 (text.length / 4 + 1)

/-- `f"[{canonical}] {message.text}\n"`. -/
def renderLine (msg : Message) : Str :=
  "[".data ++ canonicalFrom msg.metadata_json msg.platform msg.source_msg_id
    ++ "] ".data ++ msg.text ++ "\n".data

/-- The greedy accumulation loop of `segment_messages`: `buf` is the current
chunk's lines, `tokens` the running sum of their measured costs. -/
def segGo (max_tokens : Nat) (model : Str) : List Message → List Str → Nat → List Str
  | [], buf, _ => if buf.isEmpty then [] else [buf.flatten]
  | m :: rest, buf, tokens =>
    let line := renderLine m
    let count := count_tokens line model
    if max_tokens < tokens + count ∧ buf ≠ [] then
      buf.flatten :: segGo max_tokens model rest [line] count
    else
      segGo max_tokens model rest (buf ++ [line]) (tokens + count)

/-- `segment_messages` from src/app/pipeline/segment.py. -/
def segment_messages (messages : List Message) (max_tokens : Nat) (model : Str) : List Str :=
  segGo max_tokens model messages [] 0

/-! ### Resource reference parser (src/app/api/v1.py) -/

/-- `_GRAPH_RESOURCE_ENTITIES`: the known OData entity-type names. -/
def graphResourceEntities : List Str :=
  ["beta", "channels", "chats", "mailFolders", "messages", "me", "replies",
   "teams", "users", "v1.0"].map String.data

/-- Python `s.split(sep)` for a one-character separator (`"".split` gives
`[""]`, consecutive separators give empty fields). -/
def splitOnChar (c : Char) : Str → List Str
  | [] => [[]]
  | a :: rest =>
    let r := splitOnChar c rest
    if a = c then [] :: r
    else
      match r with
      | [] => [[a]]
      | t :: ts => (a :: t) :: ts

/-- Python `s.strip(c)` for a one-character strip set. -/
def pyStripChar (c : Char) (s : Str) : Str :=
  ((s.dropWhile (· = c)).reverse.dropWhile (· = c)).reverse

def isHexDigit (c : Char) : Bool :=
  ('0' ≤ c ∧ c ≤ '9') ∨ ('a' ≤ c ∧ c ≤ 'f') ∨ ('A' ≤ c ∧ c ≤ 'F')

def hexVal (c : Char) : Nat :=
  if '0' ≤ c ∧ c ≤ '9' then c.toNat - '0'.toNat
  else if 'a' ≤ c ∧ c ≤ 'f' then c.toNat - 'a'.toNat + 10
  else c.toNat - 'A'.toNat + 10

/-- `urllib.parse.unquote` on the single-byte (ASCII) fragment: a `%` followed
by two hex digits decodes to that character; malformed escapes pass through.
(Multi-byte UTF-8 escape runs, which never occur in the identifiers parsed
here, are outside the model.) -/
def pyUnquote : Str → Str
  | [] => []
  | c :: a :: b :: rest =>
    if c = '%' ∧ isHexDigit a ∧ isHexDigit b then
      Char.ofNat (16 * hexVal a + hexVal b) :: pyUnquote rest
    else c :: pyUnquote (a :: b :: rest)
  | c :: rest => c :: pyUnquote rest

/-- `parsed.setdefault(name, []).append(value)`: appends `value` to the
(ordered) value list of `name`, creating the entry on first sighting. -/
def dappend (parsed : List (Str × List Str)) (k : Str) (v : Str) : List (Str × List Str) :=
  match parsed with
  | [] => [(k, [v])]
  | (k', vs) :: rest => if k' = k then (k', vs ++ [v]) :: rest else (k', vs) :: dappend rest k v

/-- The `while idx < len(tokens)` loop of `_parse_graph_resource`: a
parenthesized token `name(...)` is consumed alone (single quotes around the
value are stripped, double quotes are not); otherwise a following non-entity
token is consumed as the value, else the value is empty. Every value is
percent-decoded. -/
def parseGo : List Str → List (Str × List Str) → List (Str × List Str)
  | [], parsed => parsed
  | token :: rest, parsed =>
    if '(' ∈ token ∧ token.getLast? = some ')' then
      let name := token.takeWhile (· ≠ '(')
      let raw := (token.dropWhile (· ≠ '(')).tail
      let value := raw.dropLast
      let value :=
        if value.head? = some '\'' ∧ value.getLast? = some '\'' then
          (value.drop 1).dropLast
        else value
      parseGo rest (dappend parsed name (pyUnquote value))
    else
      match rest with
      | next :: rest₂ =>
        if next ≠ [] ∧ next ∉ graphResourceEntities then
          parseGo rest₂ (dappend parsed token (pyUnquote next))
        else
          parseGo (next :: rest₂) (dappend parsed token (pyUnquote []))
      | [] => parseGo [] (dappend parsed token (pyUnquote []))

/-- `_parse_graph_resource` from src/app/api/v1.py. -/
def parse_graph_resource (resource : Str) : List (Str × List Str) :=
  parseGo ((splitOnChar '/' (pyStripChar '/' resource)).filter (fun t => t ≠ [])) []

/-! ### Thread reference builder (src/app/api/v1.py) -/

/-- `(parsed.get(name) or [None])[0]` over the parsed resource tokens. -/
def parsedFirst (parsed : List (Str × List Str)) (name : Str) : Option Str :=
  (parsed.lookup name).bind List.head?

/-- `if x: thread_ref[k] = x` for a `.get` result. -/
def truthySet (tr : List (Str × PyVal)) (k : Str) (x : Option PyVal) : List (Str × PyVal) :=
  match x with
  | some v => if truthy v then dset tr k v else tr
  | none => tr

/-- `_base_thread_ref` from src/app/api/v1.py: strips the raw identifier keys
and promotes `conversationId` → `conversation_id` and the tenant-id variants →
`tenant_id`. -/
def base_thread_ref (resource_data : List (Str × PyVal)) : List (Str × PyVal) :=
  let dropKeys : List Str :=
    ["id", "conversationId", "tenantId", "tenantID"].map String.data
  let tr := resource_data.filter (fun e => e.1 ∉ dropKeys)
  let tr := truthySet tr "conversation_id".data (aget resource_data "conversationId".data)
  truthySet tr "tenant_id".data
    (pyOrV (aget resource_data "tenantId".data) (aget resource_data "tenantID".data))

/-- The chat-id fallback chain of `_build_teams_thread_ref`:
`resource_data.get("chatId") or (parsed.get("chats") or [None])[0]`. -/
def teamsChatIdChain (resource : Str) (resource_data : List (Str × PyVal)) : Option PyVal :=
  pyOrV (aget resource_data "chatId".data)
    ((parsedFirst (parse_graph_resource resource) "chats".data).map .str)

/-- `_build_teams_thread_ref` from src/app/api/v1.py. Mirrors the source
statement for statement, including the unreachable
`if not chat_id: chat_id = resource_data.get("conversationId")` inside the
chat branch, which is dead because that branch is entered only when `chat_id`
is already truthy. -/
def build_teams_thread_ref (resource : Str) (resource_data : List (Str × PyVal)) :
    Option (List (Str × PyVal)) :=
  let parsed := parse_graph_resource resource
  let tr := base_thread_ref resource_data
  let tr := dset tr "resource".data (.str resource)
  let channel_identity : List (Str × PyVal) :=
    match aget resource_data "channelIdentity".data with
    | some (.dict d) => d
    | _ => []
  let team_id := pyOrV (pyOrV (aget channel_identity "teamId".data)
    (aget resource_data "teamId".data)) ((parsedFirst parsed "teams".data).map .str)
  let channel_id := pyOrV (pyOrV (aget channel_identity "channelId".data)
    (aget resource_data "channelId".data)) ((parsedFirst parsed "channels".data).map .str)
  let chat_id := pyOrV (aget resource_data "chatId".data)
    ((parsedFirst parsed "chats".data).map .str)
  let conversation_type : Str :=
    if otruthy chat_id then "chat".data else "channel".data
  let step :=
    if conversation_type = "chat".data then
      let chat_id := if otruthy chat_id then chat_id
        else aget resource_data "conversationId".data
      if otruthy chat_id then
        match chat_id with
        | some v => some (dset tr "chat_id".data v)
        | none => none
      else none
    else
      if otruthy team_id ∧ otruthy channel_id then
        match team_id, channel_id with
        | some tv, some cv => some (dset (dset tr "team_id".data tv) "channel_id".data cv)
        | _, _ => none
      else none
  match step with
  | none => none
  | some tr =>
    let tr := dset tr "conversation_type".data (.str conversation_type)
    let message_candidates := (parsed.lookup "messages".data).getD []
    let event_message_id := aget resource_data "id".data
    let message_id := pyOrV (pyOrV (aget resource_data "replyToId".data)
      (message_candidates.head?.map .str)) event_message_id
    if otruthy message_id then
      match message_id with
      | some mv =>
        let tr := dset tr "message_id".data mv
        let tr :=
          match event_message_id with
          | some ev => if truthy ev ∧ pvBeq ev mv = false then
              dset tr "event_message_id".data ev
            else tr
          | none => tr
        some tr
      | none => none
    else none

/-! ### Provenance linker (src/app/pipeline/provenance.py) -/

/-- Dictionary assignment used while building the canonical-id index
(later messages with the same canonical id overwrite earlier ones). -/
def msgIndexSet (idx : List (Str × Message)) (k : Str) (m : Message) : List (Str × Message) :=
  match idx with
  | [] => [(k, m)]
  | (k', m') :: rest => if k' = k then (k, m) :: rest else (k', m') :: msgIndexSet rest k m

/-- The index-building loop of `attach_links`. -/
def buildIndex (messages : List Message) : List (Str × Message) :=
  messages.foldl
    (fun idx msg =>
      msgIndexSet idx (canonicalFrom msg.metadata_json msg.platform msg.source_msg_id) msg)
    []

/-- `ref.msg_id or f"{ref.platform}:{ref.native_id}"`. -/
def refCanonical (ref : SupportRef) : Str :=
  if ref.msg_id ≠ [] then ref.msg_id else ref.platform ++ ":".data ++ ref.native_id

/-- The URL resolution of `attach_links`:
`metadata.get("permalink") or metadata.get("webUrl") or metadata.get("webLink")`
(Python's `or` returns the last value when all are falsy; a falsy final value
that is present but empty stays an empty string, an absent one stays `None`). -/
def permalinkOf (metadata : List (Str × PyVal)) : Option Str :=
  match pyOrV (aget metadata "permalink".data)
      (pyOrV (aget metadata "webUrl".data) (aget metadata "webLink".data)) with
  | some (.str s) => some s
  | some .vnone => none
  | some v => some (pyStr v)
  | none => none

/-- The per-reference body of the innermost loop of `attach_links`. -/
def updateRef (idx : List (Str × Message)) (ref : SupportRef) : SupportRef :=
  let canonical := refCanonical ref
  match idx.lookup canonical with
  | none => ref
  | some msg =>
    let metadata := msg.metadata_json
    { ref with
      platform := msg.platform
      native_id := msg.source_msg_id
      msg_id := match aget metadata canonicalKey with
        | some v => pyStr v
        | none => canonical
      url := permalinkOf metadata }

/-- One item of one section: every supporting reference is resolved. -/
def attachItem (idx : List (Str × Message)) (it : ExtractedItem) : ExtractedItem :=
  { it with supporting_msgs := it.supporting_msgs.map (updateRef idx) }

/-- `attach_links` from src/app/pipeline/provenance.py. -/
def attach_links (messages : List Message) (brief : CondenseResult) : CondenseResult :=
  let idx := buildIndex messages
  { brief with
    decisions := brief.decisions.map (attachItem idx)
    risks := brief.risks.map (attachItem idx)
    actions := brief.actions.map (attachItem idx)
    open_questions := brief.open_questions.map (attachItem idx) }

/-! ### Statement-side definitions -/

/-- Whether `pat` occurs as a contiguous substring of `s` (Python `pat in s`). -/
def hasSubstr (pat s : Str) : Bool :=
  s.tails.any (fun t => pat.isPrefixOf t)

/-- The shape of one value of a generated resource path: a bare following
segment, a single-quoted parenthesized value, or a double-quoted one. -/
inductive SegForm where
  | bare (v : Str)
  | squot (v : Str)
  | dquot (v : Str)
deriving DecidableEq, Repr

/-- The path segments contributed by one entity-name/value pair. -/
def segTokens : Str × SegForm → List Str
  | (n, .bare v) => [n, v]
  | (n, .squot v) => [n ++ ('(' :: '\'' :: (v ++ ['\'', ')']))]
  | (n, .dquot v) => [n ++ ('(' :: '"' :: (v ++ ['"', ')']))]

/-- Slash-join of path segments. -/
def joinSegs : List Str → Str
  | [] => []
  | [t] => t
  | t :: rest => t ++ ['/'] ++ joinSegs rest

/-- A resource path built of alternating known-entity-name and value
segments, as described by the round-trip property. -/
def buildPath (pairs : List (Str × SegForm)) : Str :=
  joinSegs ((pairs.map segTokens).flatten)

/-- The value the parser recovers for each generated form: bare and
single-quoted values are percent-decoded with no quotes; a double-quoted
value keeps its surrounding quotes (the parser strips single quotes only). -/
def expectedVal : SegForm → Str
  | .bare v => pyUnquote v
  | .squot v => pyUnquote v
  | .dquot v => pyUnquote (['"'] ++ v ++ ['"'])

/-- Well-formedness of a generated value: it fits in one path segment, and a
bare value is nonempty and not itself a known entity name. -/
abbrev segFormOk : SegForm → Prop
  | .bare v => v ≠ [] ∧ '/' ∉ v ∧ v ∉ graphResourceEntities
  | .squot v => '/' ∉ v
  | .dquot v => '/' ∉ v

instance instDecidableSegFormOk (f : SegForm) : Decidable (segFormOk f) :=
  match f with
  | .bare v => inferInstanceAs (Decidable (v ≠ [] ∧ '/' ∉ v ∧ v ∉ graphResourceEntities))
  | .squot v => inferInstanceAs (Decidable ('/' ∉ v))
  | .dquot v => inferInstanceAs (Decidable ('/' ∉ v))

/-- Grouping of generated name/value pairs into the parser's output shape:
values accumulate in order under their entity name. -/
def groupVals (l : List (Str × Str)) : List (Str × List Str) :=
  l.foldl (fun m p => dappend m p.1 p.2) []

/-- What the ranking property asserts of one category: the output is exactly
the rescored items meeting the threshold — same elements, each exactly once,
ties in their prior relative order (expressed by the per-score filter
equation) — and is sorted by confidence descending. The rescoring stores
`score_item` (with the declared default weights) as the item's confidence and
changes nothing else. -/
def rankOutputSpec (reactions_index : List (Str × Int)) (threshold : ℚ)
    (inp out : List ExtractedItem) : Prop :=
  (∀ q : ℚ, out.filter (fun it => it.confidence = q) =
    ((inp.map (fun it => { it with confidence := score_item it reactions_index 1 0 0 })).filter
      (fun it => threshold ≤ it.confidence)).filter (fun it => it.confidence = q))
  ∧ out.Pairwise (fun a b => b.confidence ≤ a.confidence)

/-- The thread reference produced for the chat notification
`chats('19:c')/messages('m1')` with an empty payload; used to instantiate the
builder classification theorem. -/
def chatExampleRef : List (Str × PyVal) :=
  [("resource".data, PyVal.str "chats('19:c')/messages('m1')".data),
   ("chat_id".data, PyVal.str "19:c".data),
   ("conversation_type".data, PyVal.str "chat".data),
   ("message_id".data, PyVal.str "m1".data)]

/-- An evidence reference with the given identifiers, empty quote and no URL;
used to instantiate theorems on concrete references. -/
def mkRef (platform native_id msg_id : Str) : SupportRef :=
  { platform := platform, native_id := native_id, msg_id := msg_id,
    quote := [], url := none }

/-- A message row with the given identifying fields and metadata (the other
columns are fixed defaults); used to instantiate theorems on concrete rows. -/
def mkMsg (platform source_msg_id text : Str) (metadata : List (Str × PyVal)) : Message :=
  { thread_id := 0, platform := platform, source_msg_id := source_msg_id,
    parent_msg_id := none, author_user_id := none, text := text, text_hash := [],
    reactions_json := [], metadata_json := metadata, created_at := 0 }

/-! ## Lemmas and theorems -/

lemma mem_insortDesc {z x : ExtractedItem} {l : List ExtractedItem}
    (h : z ∈ insortDesc x l) : z = x ∨ z ∈ l := by
  induction l with
  | nil => simpa [insortDesc] using h
  | cons y ys ih =>
    simp only [insortDesc] at h
    by_cases hyx : y.confidence ≤ x.confidence
    · rw [if_pos hyx] at h
      rcases List.mem_cons.mp h with rfl | h
      · exact Or.inl rfl
      · exact Or.inr h
    · rw [if_neg hyx] at h
      rcases List.mem_cons.mp h with rfl | h
      · exact Or.inr (List.mem_cons_self _ _)
      · rcases ih h with h | h
        · exact Or.inl h
        · exact Or.inr (List.mem_cons_of_mem _ h)

lemma insortDesc_filter (x : ExtractedItem) (l : List ExtractedItem) (q : ℚ) :
    (insortDesc x l).filter (fun it => it.confidence = q) =
      if x.confidence = q then x :: l.filter (fun it => it.confidence = q)
      else l.filter (fun it => it.confidence = q) := by
  induction l with
  | nil =>
    by_cases hx : x.confidence = q <;> simp [insortDesc, hx]
  | cons y ys ih =>
    simp only [insortDesc]
    by_cases hyx : y.confidence ≤ x.confidence
    · rw [if_pos hyx]
      by_cases hx : x.confidence = q <;> by_cases hy : y.confidence = q <;>
        simp [List.filter_cons, hx, hy]
    · rw [if_neg hyx]
      by_cases hy : y.confidence = q
      · by_cases hx : x.confidence = q
        · exact absurd (le_of_eq (hy.trans hx.symm)) hyx
        · simp [List.filter_cons, hy, hx, ih]
      · simp [List.filter_cons, hy, ih]

lemma sortDesc_filter (l : List ExtractedItem) (q : ℚ) :
    (sortDesc l).filter (fun it => it.confidence = q) =
      l.filter (fun it => it.confidence = q) := by
  induction l with
  | nil => rfl
  | cons x xs ih =>
    simp only [sortDesc, insortDesc_filter, List.filter_cons, ih]
    by_cases hx : x.confidence = q <;> simp [hx]

lemma insortDesc_sorted (x : ExtractedItem) (l : List ExtractedItem)
    (h : l.Pairwise (fun a b => b.confidence ≤ a.confidence)) :
    (insortDesc x l).Pairwise (fun a b => b.confidence ≤ a.confidence) := by
  induction l with
  | nil => simp [insortDesc]
  | cons y ys ih =>
    rcases List.pairwise_cons.mp h with ⟨hy, hys⟩
    simp only [insortDesc]
    by_cases hyx : y.confidence ≤ x.confidence
    · rw [if_pos hyx]
      refine List.pairwise_cons.mpr ⟨?_, h⟩
      intro z hz
      rcases List.mem_cons.mp hz with rfl | hz
      · exact hyx
      · exact le_trans (hy z hz) hyx
    · rw [if_neg hyx]
      refine List.pairwise_cons.mpr ⟨?_, ih hys⟩
      intro z hz
      rcases mem_insortDesc hz with rfl | hz
      · exact le_of_not_le hyx
      · exact hy z hz

lemma sortDesc_sorted (l : List ExtractedItem) :
    (sortDesc l).Pairwise (fun a b => b.confidence ≤ a.confidence) := by
  induction l with
  | nil => simp [sortDesc]
  | cons x xs ih => exact insortDesc_sorted x _ ih

lemma rankCategory_spec (reactions_index : List (Str × Int)) (threshold : ℚ)
    (items : List ExtractedItem) :
    rankOutputSpec reactions_index threshold items
      (rankCategory reactions_index threshold items) := by
  refine ⟨fun q => ?_, ?_⟩
  · exact sortDesc_filter _ q
  · exact sortDesc_sorted _

/-- C2: `rank_and_filter` handles the four categories independently; in each,
every item's score is computed once as the clamp formula of `score_item` and
stored as its confidence, the output is exactly the items scoring at least the
threshold in descending order with ties keeping their prior relative order,
and no confidence changes after filtering. -/
theorem c2_rank_filter_order (result : CondenseResult)
    (reactions_index : List (Str × Int)) (threshold : ℚ) :
    rankOutputSpec reactions_index threshold result.decisions
        (rank_and_filter result reactions_index threshold).decisions
    ∧ rankOutputSpec reactions_index threshold result.risks
        (rank_and_filter result reactions_index threshold).risks
    ∧ rankOutputSpec reactions_index threshold result.actions
        (rank_and_filter result reactions_index threshold).actions
    ∧ rankOutputSpec reactions_index threshold result.open_questions
        (rank_and_filter result reactions_index threshold).open_questions :=
  ⟨rankCategory_spec _ _ _, rankCategory_spec _ _ _, rankCategory_spec _ _ _,
    rankCategory_spec _ _ _⟩

lemma score_item_default (item : ExtractedItem) (reactions_index : List (Str × Int)) :
    score_item item reactions_index 1 0 0 =
      max 0 (min 1 (item.confidence + (5 / 100) * ((agreeSum reactions_index item : Int) : ℚ)
        + 5 / 100)) := by
  unfold score_item
  ring_nf

lemma rankCategory_default (reactions_index : List (Str × Int)) (threshold : ℚ)
    (items : List ExtractedItem) :
    rankCategory reactions_index threshold items =
      sortDesc ((items.map (fun it =>
        { it with confidence := max 0 (min 1 (it.confidence
            + (5 / 100) * ((agreeSum reactions_index it : Int) : ℚ) + 5 / 100)) })).filter
        (fun it => threshold ≤ it.confidence)) := by
  have hmap : items.map (fun it =>
        { it with confidence := score_item it reactions_index 1 0 0 }) =
      items.map (fun it =>
        { it with confidence := max 0 (min 1 (it.confidence
            + (5 / 100) * ((agreeSum reactions_index it : Int) : ℚ) + 5 / 100)) }) :=
    List.map_congr_left fun it _ => by rw [score_item_default]
  simp only [rankCategory, hmap]

/-- C10: `rank_and_filter` always scores with the declared default signal
weights — every stored confidence is
`clamp(confidence + 0.05·Σreactions + 0.05, 0, 1)`: a constant `+0.05`
seniority bonus, no recency bonus, no contradiction penalty, on every call. -/
theorem c10_default_weights (result : CondenseResult)
    (reactions_index : List (Str × Int)) (threshold : ℚ) :
    (rank_and_filter result reactions_index threshold).decisions =
      sortDesc ((result.decisions.map (fun it =>
        { it with confidence := max 0 (min 1 (it.confidence
            + (5 / 100) * ((agreeSum reactions_index it : Int) : ℚ) + 5 / 100)) })).filter
        (fun it => threshold ≤ it.confidence))
    ∧ (rank_and_filter result reactions_index threshold).risks =
      sortDesc ((result.risks.map (fun it =>
        { it with confidence := max 0 (min 1 (it.confidence
            + (5 / 100) * ((agreeSum reactions_index it : Int) : ℚ) + 5 / 100)) })).filter
        (fun it => threshold ≤ it.confidence))
    ∧ (rank_and_filter result reactions_index threshold).actions =
      sortDesc ((result.actions.map (fun it =>
        { it with confidence := max 0 (min 1 (it.confidence
            + (5 / 100) * ((agreeSum reactions_index it : Int) : ℚ) + 5 / 100)) })).filter
        (fun it => threshold ≤ it.confidence))
    ∧ (rank_and_filter result reactions_index threshold).open_questions =
      sortDesc ((result.open_questions.map (fun it =>
        { it with confidence := max 0 (min 1 (it.confidence
            + (5 / 100) * ((agreeSum reactions_index it : Int) : ℚ) + 5 / 100)) })).filter
        (fun it => threshold ≤ it.confidence)) :=
  ⟨rankCategory_default _ _ _, rankCategory_default _ _ _, rankCategory_default _ _ _,
    rankCategory_default _ _ _⟩

lemma count_tokens_append (model : Str) (a b : Str) :
    count_tokens (a ++ b) model ≤ count_tokens a model + count_tokens b model := by
  unfold count_tokens
  rw [List.length_append]
  rw [Nat.max_eq_right (by omega), Nat.max_eq_right (by omega), Nat.max_eq_right (by omega)]
  omega

lemma count_tokens_flatten (model : Str) (buf : List Str) (h : buf ≠ []) :
    count_tokens buf.flatten model ≤ (buf.map (fun l => count_tokens l model)).sum := by
  induction buf with
  | nil => cases h rfl
  | cons l rest ih =>
    cases rest with
    | nil => simp
    | cons l₂ r₂ =>
      calc count_tokens ((l :: l₂ :: r₂).flatten) model
          = count_tokens (l ++ (l₂ :: r₂).flatten) model := by rw [List.flatten_cons]
        _ ≤ count_tokens l model + count_tokens ((l₂ :: r₂).flatten) model :=
            count_tokens_append ..
        _ ≤ (List.map (fun l => count_tokens l model) (l :: l₂ :: r₂)).sum := by
            have h := ih (by simp)
            simp only [List.map_cons, List.sum_cons] at h ⊢
            omega

lemma emit_ok (max_tokens : Nat) (model : Str) (M : List Message) (buf : List Str)
    (hbuf : ∀ l ∈ buf, ∃ m ∈ M, l = renderLine m)
    (hsum : (buf.map (fun l => count_tokens l model)).sum ≤ max_tokens ∨ ∃ l, buf = [l])
    (hne : buf ≠ []) :
    count_tokens buf.flatten model ≤ max_tokens ∨
      ∃ m ∈ M, buf.flatten = renderLine m ∧
        max_tokens < count_tokens (renderLine m) model := by
  rcases hsum with hle | ⟨l₀, rfl⟩
  · exact Or.inl (le_trans (count_tokens_flatten model buf hne) hle)
  · by_cases hc : count_tokens l₀ model ≤ max_tokens
    · exact Or.inl (by simpa using hc)
    · rcases hbuf l₀ (by simp) with ⟨m, hm, rfl⟩
      exact Or.inr ⟨m, hm, by simp, by omega⟩

lemma segGo_chunks (max_tokens : Nat) (model : Str) (M : List Message) :
    ∀ (msgs : List Message) (buf : List Str),
      (∀ m ∈ msgs, m ∈ M) →
      (∀ l ∈ buf, ∃ m ∈ M, l = renderLine m) →
      ((buf.map (fun l => count_tokens l model)).sum ≤ max_tokens ∨ ∃ l, buf = [l]) →
      ∀ chunk ∈ segGo max_tokens model msgs buf
          ((buf.map (fun l => count_tokens l model)).sum),
        count_tokens chunk model ≤ max_tokens ∨
          ∃ m ∈ M, chunk = renderLine m ∧
            max_tokens < count_tokens (renderLine m) model := by
  intro msgs
  induction msgs with
  | nil =>
    intro buf _ hbuf hsum chunk hchunk
    by_cases hb : buf.isEmpty
    · simp [segGo, hb] at hchunk
    · simp only [segGo] at hchunk
      rw [if_neg hb] at hchunk
      rcases List.mem_singleton.mp hchunk with rfl
      exact emit_ok max_tokens model M buf hbuf hsum (by simpa using hb)
  | cons m rest ih =>
    intro buf hmsgs hbuf hsum chunk hchunk
    simp only [segGo] at hchunk
    by_cases hcond : max_tokens < (buf.map (fun l => count_tokens l model)).sum
        + count_tokens (renderLine m) model ∧ buf ≠ []
    · rw [if_pos hcond] at hchunk
      rcases List.mem_cons.mp hchunk with rfl | htail
      · exact emit_ok max_tokens model M buf hbuf hsum hcond.2
      · have hrec := ih [renderLine m]
          (fun x hx => hmsgs x (List.mem_cons_of_mem _ hx))
          (fun l hl => ⟨m, hmsgs m (List.mem_cons_self _ _), by simpa using hl⟩)
          (Or.inr ⟨renderLine m, rfl⟩) chunk
        apply hrec
        simpa using htail
    · rw [if_neg hcond] at hchunk
      have hrec := ih (buf ++ [renderLine m])
        (fun x hx => hmsgs x (List.mem_cons_of_mem _ hx))
        (fun l hl => by
          rcases List.mem_append.mp hl with hl | hl
          · exact hbuf l hl
          · exact ⟨m, hmsgs m (List.mem_cons_self _ _), by simpa using hl⟩)
        (by
          rcases Decidable.not_and_iff_or_not.mp hcond with hc | hc
          · exact Or.inl (by simp only [List.map_append, List.sum_append,
              List.map_cons, List.map_nil, List.sum_cons, List.sum_nil]; omega)
          · have : buf = [] := by simpa using hc
            exact Or.inr ⟨renderLine m, by simp [this]⟩)
        chunk
      apply hrec
      simpa [List.map_append] using hchunk

/-- C3: every chunk produced by `segment_messages` measures at most
`max_tokens` under the program's `count_tokens`, except a chunk that is a
single message's rendered line whose own measure exceeds `max_tokens`, which
still appears alone as its own chunk. -/
theorem c3_segment_bound (messages : List Message) (max_tokens : Nat) (model : Str) :
    ∀ chunk ∈ segment_messages messages max_tokens model,
      count_tokens chunk model ≤ max_tokens ∨
        ∃ m ∈ messages, chunk = renderLine m ∧
          max_tokens < count_tokens (renderLine m) model := by
  have h := segGo_chunks max_tokens model messages messages []
    (fun _ h => h) (by simp) (Or.inl (by simp))
  intro chunk hchunk
  exact h chunk (by simpa [segment_messages] using hchunk)

/-- Closed instance of C3: a single message whose line costs 5 tokens against
a budget of 1 still appears, alone. -/
theorem c3_segment_bound_witness :
    ("[slack:1] abcdefgh\n".data
        ∈ segment_messages [mkMsg "slack".data "1".data "abcdefgh".data []] 1 "m".data)
    ∧ (count_tokens "[slack:1] abcdefgh\n".data "m".data ≤ 1 ∨
        ∃ m ∈ [mkMsg "slack".data "1".data "abcdefgh".data []],
          "[slack:1] abcdefgh\n".data = renderLine m ∧
            1 < count_tokens (renderLine m) "m".data) :=
  ⟨by decide, c3_segment_bound _ _ _ _ (by decide)⟩

lemma segGo_partition (max_tokens : Nat) (model : Str) :
    ∀ (msgs : List Message) (buf : List Str) (tokens : Nat),
      ∃ ll : List (List Str),
        segGo max_tokens model msgs buf tokens = ll.map List.flatten ∧
        ll.flatten = buf ++ msgs.map renderLine ∧
        ∀ c ∈ ll, c ≠ [] := by
  intro msgs
  induction msgs with
  | nil =>
    intro buf tokens
    by_cases hb : buf.isEmpty
    · exact ⟨[], by simp [segGo, hb], by simpa using (List.isEmpty_iff.mp hb).symm,
        by simp⟩
    · exact ⟨[buf], by simp [segGo, hb], by simp, by
        intro c hc
        rcases List.mem_singleton.mp hc with rfl
        simpa using hb⟩
  | cons m rest ih =>
    intro buf tokens
    simp only [segGo]
    by_cases hcond : max_tokens < tokens + count_tokens (renderLine m) model ∧ buf ≠ []
    · rw [if_pos hcond]
      obtain ⟨ll, h1, h2, h3⟩ := ih [renderLine m] (count_tokens (renderLine m) model)
      refine ⟨buf :: ll, ?_, ?_, ?_⟩
      · simp [h1]
      · simp only [List.flatten_cons, h2, List.map_cons]
        simp
      · intro c hc
        rcases List.mem_cons.mp hc with rfl | hc
        · exact hcond.2
        · exact h3 c hc
    · rw [if_neg hcond]
      obtain ⟨ll, h1, h2, h3⟩ := ih (buf ++ [renderLine m])
        (tokens + count_tokens (renderLine m) model)
      refine ⟨ll, h1, ?_, h3⟩
      rw [h2]
      simp

/-- C4: the concatenation of all chunks of `segment_messages` is exactly the
concatenation, in original order, of the messages' rendered lines; moreover
the chunk list is the image of a partition of the rendered-line list into
consecutive nonempty groups, so every line appears exactly once, whole and in
order, across the chunks. -/
theorem c4_segment_complete (messages : List Message) (max_tokens : Nat) (model : Str) :
    (segment_messages messages max_tokens model).flatten
        = (messages.map renderLine).flatten
    ∧ ∃ ll : List (List Str),
        segment_messages messages max_tokens model = ll.map List.flatten ∧
        ll.flatten = messages.map renderLine ∧
        ∀ c ∈ ll, c ≠ [] := by
  obtain ⟨ll, h1, h2, h3⟩ := segGo_partition max_tokens model messages [] 0
  have h2' : ll.flatten = messages.map renderLine := by simpa using h2
  constructor
  · rw [segment_messages, h1, ← h2', ← List.flatten_flatten]
  · exact ⟨ll, by simpa [segment_messages] using h1, h2', h3⟩

lemma hasSubstr_cons (pat : Str) (c : Char) (t : Str) :
    hasSubstr pat (c :: t) = (pat.isPrefixOf (c :: t) || hasSubstr pat t) := by
  simp [hasSubstr, List.tails_cons]

lemma pyReplaceGo_id (pat repl : Str) :
    ∀ (fuel : Nat) (s : Str), s.length ≤ fuel → hasSubstr pat s = false →
      pyReplaceGo pat repl fuel s = s := by
  intro fuel
  induction fuel with
  | zero =>
    intro s hlen _
    have hs : s = [] := List.eq_nil_of_length_eq_zero (Nat.le_zero.mp hlen)
    subst hs
    rfl
  | succ n ihn =>
    intro s hlen hsub
    cases s with
    | nil => rfl
    | cons c t =>
      rw [hasSubstr_cons] at hsub
      obtain ⟨h1, h2⟩ := Bool.or_eq_false_iff.mp hsub
      simp only [pyReplaceGo]
      rw [if_neg (fun hcond => by rw [h1] at hcond; exact Bool.false_ne_true hcond.2)]
      have ht : pyReplaceGo pat repl n t = t :=
        ihn t (by simp at hlen; omega) h2
      rw [ht]

lemma pyReplace_id (pat repl s : Str) (h : hasSubstr pat s = false) :
    pyReplace pat repl s = s :=
  pyReplaceGo_id pat repl s.length s le_rfl h

lemma pyReplaceGo_cr :
    ∀ (fuel : Nat) (s : Str), s.length ≤ fuel →
      pyReplaceGo "\r".data [] fuel s = s.filter (fun c => c ≠ '\r') := by
  intro fuel
  induction fuel with
  | zero =>
    intro s hlen
    have hs : s = [] := List.eq_nil_of_length_eq_zero (Nat.le_zero.mp hlen)
    subst hs
    rfl
  | succ n ihn =>
    intro s hlen
    cases s with
    | nil => rfl
    | cons c t =>
      have hlt : t.length ≤ n := by simp at hlen; omega
      simp only [pyReplaceGo]
      by_cases hc : c = '\r'
      · subst hc
        rw [if_pos ⟨by decide, by simp [List.isPrefixOf]⟩]
        rw [List.nil_append]
        have hdrop : (('\r' :: t).drop ("\r".data.length)) = t := by simp
        rw [hdrop, ihn t hlt]
        simp
      · rw [if_neg (fun hcond => by
          simp [List.isPrefixOf, show ('\r' == c) = false by
            simpa using fun h => hc h.symm] at hcond)]
        rw [ihn t hlt]
        simp [hc]

lemma pyReplace_cr (s : Str) :
    pyReplace "\r".data [] s = s.filter (fun c => c ≠ '\r') :=
  pyReplaceGo_cr s.length s le_rfl

lemma dropWhile_eq_self_of_head (p : Char → Bool) (l : Str)
    (h : ∀ c, l.head? = some c → p c = false) : l.dropWhile p = l := by
  cases l with
  | nil => rfl
  | cons c t => simp [List.dropWhile, h c rfl]

lemma head_dropWhile_false (p : Char → Bool) (l : Str) (c : Char)
    (h : (l.dropWhile p).head? = some c) : p c = false := by
  have h' := List.head?_dropWhile_not p l
  rw [h] at h'
  simpa using h'

lemma getLast_dropWhile_false (p : Char → Bool) (l : Str) (c : Char)
    (h : (l.dropWhile p).getLast? = some c) : l.getLast? = some c := by
  obtain ⟨pre, hpre⟩ := List.dropWhile_suffix (l := l) p
  have hne : l.dropWhile p ≠ [] := by
    intro he
    rw [he] at h
    simp at h
  rw [← hpre, List.getLast?_append_of_ne_nil _ hne]
  exact h

lemma mem_pyStripWS {a : Char} {s : Str} (h : a ∈ pyStripWS s) : a ∈ s := by
  unfold pyStripWS at h
  have h1 := List.mem_reverse.mp h
  have h2 := (List.dropWhile_sublist _).mem h1
  have h3 := List.mem_reverse.mp h2
  exact (List.dropWhile_sublist _).mem h3

lemma pyStripWS_idem (s : Str) : pyStripWS (pyStripWS s) = pyStripWS s := by
  have key : ∀ y : Str,
      (∀ c, y.head? = some c → isPySpace c = false) →
      (∀ c, y.getLast? = some c → isPySpace c = false) →
      pyStripWS y = y := by
    intro y hhead hlast
    unfold pyStripWS
    rw [dropWhile_eq_self_of_head _ _ hhead]
    rw [dropWhile_eq_self_of_head _ _ (fun c hc => by
      rw [List.head?_reverse] at hc
      exact hlast c hc)]
    exact List.reverse_reverse y
  apply key
  · intro c hc
    unfold pyStripWS at hc
    rw [List.head?_reverse] at hc
    have := getLast_dropWhile_false isPySpace _ c hc
    rw [List.getLast?_reverse] at this
    exact head_dropWhile_false isPySpace s c this
  · intro c hc
    unfold pyStripWS at hc
    rw [List.getLast?_reverse] at hc
    exact head_dropWhile_false isPySpace _ c hc

lemma pyStripWS_no_cr {s : Str} (h : '\r' ∉ s) : '\r' ∉ pyStripWS s :=
  fun hmem => h (mem_pyStripWS hmem)

/-- C7 counterexample: `_normalize_text` is not idempotent. On the slack text
`"&amp;lt;"` one pass yields `"&lt;"`, a second pass yields `"<"`. -/
theorem c7_counterexample :
    normalize_text { mkMsg "slack".data "1".data "&amp;lt;".data [] with
        text := normalize_text (mkMsg "slack".data "1".data "&amp;lt;".data []) }
      ≠ normalize_text (mkMsg "slack".data "1".data "&amp;lt;".data []) := by
  decide

lemma normalize_text_of_clean (msg : Message)
    (h1 : hasSubstr "&lt;".data msg.text = false)
    (h2 : hasSubstr "&gt;".data msg.text = false)
    (h3 : hasSubstr "&amp;".data msg.text = false)
    (hcr : msg.platform = "msteams".data ∨ msg.platform = "outlook".data →
      '\r' ∉ msg.text)
    (hstrip : pyStripWS msg.text = msg.text) :
    normalize_text msg = msg.text := by
  simp only [normalize_text]
  rw [pyReplace_id _ _ _ h1, pyReplace_id _ _ _ h2, pyReplace_id _ _ _ h3]
  by_cases hp : msg.platform = "msteams".data ∨ msg.platform = "outlook".data
  · rw [if_pos hp, pyReplace_cr]
    rw [List.filter_eq_self.mpr (fun a ha => by
      simp only [decide_eq_true_eq]
      intro he
      exact hcr hp (he ▸ ha))]
    exact hstrip
  · rw [if_neg hp]
    exact hstrip

lemma normalize_text_no_cr (msg : Message)
    (hp : msg.platform = "msteams".data ∨ msg.platform = "outlook".data) :
    '\r' ∉ normalize_text msg := by
  simp only [normalize_text]
  rw [if_pos hp, pyReplace_cr]
  intro h
  have h' := mem_pyStripWS h
  have := List.of_mem_filter h'
  simp at this

lemma normalize_text_stripped (msg : Message) :
    pyStripWS (normalize_text msg) = normalize_text msg := by
  simp only [normalize_text]
  exact pyStripWS_idem _

/-- C7 as amended: text normalization is idempotent on every message whose
normalized output contains none of the entity sequences `&lt;`, `&gt;`,
`&amp;` (re-unescaping such leftovers, as in the counterexample, is the only
source of non-idempotence). -/
theorem c7_normalize_idempotent (msg : Message)
    (h1 : hasSubstr "&lt;".data (normalize_text msg) = false)
    (h2 : hasSubstr "&gt;".data (normalize_text msg) = false)
    (h3 : hasSubstr "&amp;".data (normalize_text msg) = false) :
    normalize_text { msg with text := normalize_text msg } = normalize_text msg :=
  normalize_text_of_clean { msg with text := normalize_text msg } h1 h2 h3
    (fun hp => normalize_text_no_cr msg hp) (normalize_text_stripped msg)

/-- Closed instance of the amended C7 at a concrete normalized text. -/
theorem c7_normalize_idempotent_witness :
    (hasSubstr "&lt;".data (normalize_text (mkMsg "slack".data "1".data " a<b ".data [])) = false
      ∧ hasSubstr "&gt;".data (normalize_text (mkMsg "slack".data "1".data " a<b ".data [])) = false
      ∧ hasSubstr "&amp;".data (normalize_text (mkMsg "slack".data "1".data " a<b ".data [])) = false)
    ∧ normalize_text { mkMsg "slack".data "1".data " a<b ".data [] with
        text := normalize_text (mkMsg "slack".data "1".data " a<b ".data []) }
      = normalize_text (mkMsg "slack".data "1".data " a<b ".data []) :=
  ⟨⟨by decide, by decide, by decide⟩,
    c7_normalize_idempotent _ (by decide) (by decide) (by decide)⟩

lemma lookup_cons_self {β : Type} (a : Str) (v : β) (es : List (Str × β)) :
    List.lookup a ((a, v) :: es) = some v := by
  simp [List.lookup_cons]

lemma lookup_cons_ne {β : Type} {a k : Str} (v : β) (es : List (Str × β)) (h : a ≠ k) :
    List.lookup a ((k, v) :: es) = List.lookup a es := by
  have hb : (a == k) = false := beq_eq_false_iff_ne.mpr h
  simp [List.lookup_cons, hb]

lemma lookup_append_right {β : Type} (d : List (Str × β)) (k : Str) (tail : List (Str × β))
    (h : d.lookup k = none) : (d ++ tail).lookup k = tail.lookup k := by
  induction d with
  | nil => rfl
  | cons e rest ih =>
    obtain ⟨k', v'⟩ := e
    by_cases hk : k = k'
    · subst hk
      rw [lookup_cons_self] at h
      cases h
    · rw [lookup_cons_ne v' rest hk] at h
      rw [List.cons_append, lookup_cons_ne v' _ hk]
      exact ih h

lemma lookup_dset_self (d : List (Str × PyVal)) (k : Str) (v : PyVal) :
    (dset d k v).lookup k = some v := by
  induction d with
  | nil => simp [dset, lookup_cons_self]
  | cons e rest ih =>
    obtain ⟨k', v'⟩ := e
    simp only [dset]
    by_cases h : k' = k
    · rw [if_pos h, lookup_cons_self]
    · rw [if_neg h, lookup_cons_ne v' _ (fun he => h he.symm)]
      exact ih

lemma lookup_dset_ne (d : List (Str × PyVal)) {k k' : Str} (v : PyVal) (h : k' ≠ k) :
    (dset d k v).lookup k' = d.lookup k' := by
  induction d with
  | nil => simp [dset, lookup_cons_ne _ _ h]
  | cons e rest ih =>
    obtain ⟨k₀, v₀⟩ := e
    simp only [dset]
    by_cases h₀ : k₀ = k
    · subst h₀
      rw [if_pos rfl]
      rw [lookup_cons_ne v _ h, lookup_cons_ne v₀ _ h]
    · rw [if_neg h₀]
      by_cases hk' : k' = k₀
      · subst hk'
        rw [lookup_cons_self, lookup_cons_self]
      · rw [lookup_cons_ne v₀ _ hk', lookup_cons_ne v₀ _ hk']
        exact ih

lemma persistMeta_canonical (platform native_id : Str) (md : List (Str × PyVal))
    (h : md.lookup canonicalKey = none) :
    (persistMeta platform native_id md).lookup canonicalKey =
      some (.str (platform ++ ":".data ++ native_id)) := by
  unfold persistMeta pySetdefault
  rw [if_neg (by simp [h])]
  rw [lookup_append_right _ _ _ h, lookup_cons_self]

lemma slackMeta_no_canonical (team_id channel_id ts : Str) (thread_ts : Option Str) :
    (slackMessageMetadata team_id channel_id ts thread_ts).lookup canonicalKey = none := by
  unfold slackMessageMetadata
  rw [lookup_cons_ne _ _ (by decide), lookup_cons_ne _ _ (by decide),
    lookup_cons_ne _ _ (by decide), lookup_cons_ne _ _ (by decide)]
  rfl

lemma teamsMeta_no_canonical (webUrl : Option Str) (raw_html : Str)
    (createdDateTime lastModifiedDateTime : Option Str) :
    (teamsMessageMetadata webUrl raw_html createdDateTime
      lastModifiedDateTime).lookup canonicalKey = none := by
  unfold teamsMessageMetadata
  rw [lookup_cons_ne _ _ (by decide), lookup_cons_ne _ _ (by decide),
    lookup_cons_ne _ _ (by decide), lookup_cons_ne _ _ (by decide)]
  rfl

lemma outlookMeta_no_canonical (webLink internetMessageId conversationIndex : Option Str)
    (toRecipients ccRecipients : PyVal) (raw_html : Str) :
    (outlookMessageMetadata webLink internetMessageId conversationIndex
      toRecipients ccRecipients raw_html).lookup canonicalKey = none := by
  unfold outlookMessageMetadata
  rw [lookup_cons_ne _ _ (by decide), lookup_cons_ne _ _ (by decide),
    lookup_cons_ne _ _ (by decide), lookup_cons_ne _ _ (by decide),
    lookup_cons_ne _ _ (by decide), lookup_cons_ne _ _ (by decide)]
  rfl

lemma upsertRow_append_fresh (thread_id : Nat) (native_id : Str) (fresh : Message)
    (upd : Message → Message) (db : List Message)
    (h : ∀ row ∈ db, ¬(row.thread_id = thread_id ∧ row.source_msg_id = native_id)) :
    upsertRow thread_id native_id fresh upd db = db ++ [fresh] := by
  induction db with
  | nil => rfl
  | cons row rest ih =>
    simp only [upsertRow]
    rw [if_neg (h row (List.mem_cons_self _ _))]
    rw [ih (fun r hr => h r (List.mem_cons_of_mem _ hr))]
    rfl

lemma upsertRow_update_last (thread_id : Nat) (native_id : Str) (fresh : Message)
    (upd : Message → Message) (db : List Message) (r : Message)
    (h : ∀ row ∈ db, ¬(row.thread_id = thread_id ∧ row.source_msg_id = native_id))
    (hr : r.thread_id = thread_id ∧ r.source_msg_id = native_id) :
    upsertRow thread_id native_id fresh upd (db ++ [r]) = db ++ [upd r] := by
  induction db with
  | nil =>
    simp only [List.nil_append, upsertRow]
    rw [if_pos hr]
  | cons row rest ih =>
    simp only [List.cons_append, upsertRow]
    rw [if_neg (h row (List.mem_cons_self _ _))]
    exact congrArg (row :: ·) (ih (fun x hx => h x (List.mem_cons_of_mem _ hx)))

lemma mem_upsertRow (thread_id : Nat) (native_id : Str) (fresh : Message)
    (upd : Message → Message) :
    ∀ (db : List Message) (row : Message), row ∈ upsertRow thread_id native_id fresh upd db →
      row ∈ db ∨ row = fresh ∨ ∃ r ∈ db, row = upd r := by
  intro db
  induction db with
  | nil =>
    intro row hrow
    rcases List.mem_singleton.mp hrow with rfl
    exact Or.inr (Or.inl rfl)
  | cons x rest ih =>
    intro row hrow
    simp only [upsertRow] at hrow
    by_cases hx : x.thread_id = thread_id ∧ x.source_msg_id = native_id
    · rw [if_pos hx] at hrow
      rcases List.mem_cons.mp hrow with rfl | hrow
      · exact Or.inr (Or.inr ⟨x, List.mem_cons_self _ _, rfl⟩)
      · exact Or.inl (List.mem_cons_of_mem _ hrow)
    · rw [if_neg hx] at hrow
      rcases List.mem_cons.mp hrow with rfl | hrow
      · exact Or.inl (List.mem_cons_self _ _)
      · rcases ih row hrow with h | h | ⟨r, hr, hrow⟩
        · exact Or.inl (List.mem_cons_of_mem _ h)
        · exact Or.inr (Or.inl h)
        · exact Or.inr (Or.inr ⟨r, List.mem_cons_of_mem _ hr, hrow⟩)

lemma preprocess_canonical_present (msg : Message) :
    ((preprocessMessage msg).metadata_json.lookup canonicalKey).isSome := by
  unfold preprocessMessage
  simp only
  rw [lookup_dset_ne _ _ (by decide), lookup_dset_self]
  rfl

lemma preprocess_canonical_backfill (msg : Message)
    (h : otruthy (aget msg.metadata_json canonicalKey) = false) :
    (preprocessMessage msg).metadata_json.lookup canonicalKey =
      some (.str (msg.platform ++ ":".data ++ msg.source_msg_id)) := by
  unfold preprocessMessage
  simp only
  rw [lookup_dset_ne _ _ (by decide), lookup_dset_self]
  cases hv : aget msg.metadata_json canonicalKey with
  | none => rfl
  | some v =>
    rw [hv] at h
    simp only [otruthy] at h
    simp [h]

/-- C1 counterexample: the normalize step keeps a pre-existing truthy
`canonical_id` even when it differs from `{platform}:{source_msg_id}`. A slack
message with source id `1` whose stored canonical id is `"x"` comes out of
`preprocess_thread` still carrying `"x"`, not `"slack:1"`. -/
theorem c1_counterexample :
    ((preprocess_thread [mkMsg "slack".data "1".data "t".data
          [(canonicalKey, .str "x".data)]] 0).map
        (fun m => (m.metadata_json.lookup canonicalKey).map pyStr))
      = [some "x".data]
    ∧ ("x".data : Str) ≠ "slack:1".data := by
  constructor
  · decide
  · decide

/-- C1 as amended: every message persisted through the three platform ingest
paths carries `canonical_id = "{platform}:{source_msg_id}"` in its metadata
(their metadata mappings never pre-set the key, and `_persist_message`
backfills it); the normalize step guarantees the key is *present*, setting it
to the built identifier whenever it was absent or falsy, but keeps a
pre-existing truthy value as is. -/
theorem c1_canonical_metadata :
    (∀ (platform native_id : Str) (md : List (Str × PyVal)),
      md.lookup canonicalKey = none →
      (persistMeta platform native_id md).lookup canonicalKey =
        some (.str (platform ++ ":".data ++ native_id)))
    ∧ (∀ (team_id channel_id ts : Str) (thread_ts : Option Str),
      (slackMessageMetadata team_id channel_id ts thread_ts).lookup canonicalKey = none)
    ∧ (∀ (webUrl : Option Str) (raw_html : Str) (c lm : Option Str),
      (teamsMessageMetadata webUrl raw_html c lm).lookup canonicalKey = none)
    ∧ (∀ (wl im ci : Option Str) (toR ccR : PyVal) (raw_html : Str),
      (outlookMessageMetadata wl im ci toR ccR raw_html).lookup canonicalKey = none)
    ∧ (∀ (sha1hex : Str → Str) (db : List Message) (thread_id : Nat)
        (platform native_id : Str) (parent_id : Option Str) (user : Option Nat)
        (text : Str) (created_at : Int) (reactions : Option (List (Str × Int)))
        (metadata : List (Str × PyVal)),
      metadata.lookup canonicalKey = none →
      ∀ row ∈ persist_message sha1hex db thread_id platform native_id parent_id user
          text created_at reactions metadata,
        row ∈ db ∨ row.metadata_json.lookup canonicalKey =
          some (.str (platform ++ ":".data ++ native_id)))
    ∧ (∀ (db : List Message) (thread_id : Nat),
      ∀ msg ∈ preprocess_thread db thread_id,
        (msg.metadata_json.lookup canonicalKey).isSome)
    ∧ (∀ msg : Message, otruthy (aget msg.metadata_json canonicalKey) = false →
      (preprocessMessage msg).metadata_json.lookup canonicalKey =
        some (.str (msg.platform ++ ":".data ++ msg.source_msg_id))) := by
  refine ⟨persistMeta_canonical, slackMeta_no_canonical, teamsMeta_no_canonical,
    outlookMeta_no_canonical, ?_, ?_, preprocess_canonical_backfill⟩
  · intro sha db tid p nid pid u tx ts rx md hmd row hrow
    unfold persist_message at hrow
    rcases mem_upsertRow _ _ _ _ db row hrow with h | h | ⟨r, _, hrow⟩
    · exact Or.inl h
    · subst h
      exact Or.inr (persistMeta_canonical p nid md hmd)
    · subst hrow
      exact Or.inr (persistMeta_canonical p nid md hmd)
  · intro db tid msg hmsg
    unfold preprocess_thread at hmsg
    rcases List.mem_map.mp hmsg with ⟨m, _, rfl⟩
    exact preprocess_canonical_present m

/-- Closed instance of the amended C1 on a slack-shaped persist and a
preprocess backfill. -/
theorem c1_canonical_metadata_witness :
    (([] : List (Str × PyVal)).lookup canonicalKey = none
      ∧ (persistMeta "slack".data "7".data []).lookup canonicalKey =
          some (.str ("slack".data ++ ":".data ++ "7".data)))
    ∧ (otruthy (aget (mkMsg "slack".data "7".data [] []).metadata_json canonicalKey) = false
      ∧ (preprocessMessage (mkMsg "slack".data "7".data [] [])).metadata_json.lookup
            canonicalKey =
          some (.str ((mkMsg "slack".data "7".data [] []).platform ++ ":".data
            ++ (mkMsg "slack".data "7".data [] []).source_msg_id))) :=
  ⟨⟨rfl, c1_canonical_metadata.1 "slack".data "7".data [] rfl⟩,
    ⟨rfl, c1_canonical_metadata.2.2.2.2.2.2 (mkMsg "slack".data "7".data [] []) rfl⟩⟩

lemma upsert_key_fields (upd_text upd_hash : Str) (parent : Option Str)
    (user : Option Nat) (rx : List (Str × Int)) (md : List (Str × PyVal)) (ts : Int)
    (row : Message) :
    ({ row with
        text := upd_text
        text_hash := upd_hash
        parent_msg_id := parent
        author_user_id := user
        reactions_json := rx
        metadata_json := md
        created_at := ts } : Message).thread_id = row.thread_id := rfl

/-- C8: persisting the same `(thread, source message id)` twice — with
possibly different content — leaves exactly one matching row, carrying the
second call's text, text hash, parent id, author, reactions, metadata and
timestamp. -/
theorem c8_idempotent_reingest
    (sha1hex : Str → Str) (db : List Message) (thread_id : Nat)
    (platform₁ native_id : Str) (parent₁ : Option Str) (user₁ : Option Nat)
    (text₁ : Str) (created₁ : Int) (reactions₁ : Option (List (Str × Int)))
    (metadata₁ : List (Str × PyVal))
    (platform₂ : Str) (parent₂ : Option Str) (user₂ : Option Nat)
    (text₂ : Str) (created₂ : Int) (reactions₂ : Option (List (Str × Int)))
    (metadata₂ : List (Str × PyVal))
    (hdb : ∀ row ∈ db, ¬(row.thread_id = thread_id ∧ row.source_msg_id = native_id)) :
    ((persist_message sha1hex
        (persist_message sha1hex db thread_id platform₁ native_id parent₁ user₁ text₁
          created₁ reactions₁ metadata₁)
        thread_id platform₂ native_id parent₂ user₂ text₂ created₂ reactions₂
        metadata₂).filter
      (fun row => row.thread_id = thread_id ∧ row.source_msg_id = native_id)).length = 1
    ∧ ∀ row ∈ persist_message sha1hex
        (persist_message sha1hex db thread_id platform₁ native_id parent₁ user₁ text₁
          created₁ reactions₁ metadata₁)
        thread_id platform₂ native_id parent₂ user₂ text₂ created₂ reactions₂ metadata₂,
        row.thread_id = thread_id → row.source_msg_id = native_id →
          row.text = text₂ ∧ row.text_hash = sha1hex text₂ ∧
          row.parent_msg_id = parent₂ ∧ row.author_user_id = user₂ ∧
          row.reactions_json = reactions₂.getD [] ∧
          row.metadata_json = persistMeta platform₂ native_id metadata₂ ∧
          row.created_at = created₂ := by
  have h₁ : persist_message sha1hex db thread_id platform₁ native_id parent₁ user₁ text₁
      created₁ reactions₁ metadata₁ = db ++
        [{ thread_id := thread_id, platform := platform₁, source_msg_id := native_id,
           parent_msg_id := parent₁, author_user_id := user₁, text := text₁,
           text_hash := sha1hex text₁, reactions_json := reactions₁.getD [],
           metadata_json := persistMeta platform₁ native_id metadata₁,
           created_at := created₁ }] := by
    unfold persist_message
    exact upsertRow_append_fresh _ _ _ _ db hdb
  have h₂ : persist_message sha1hex
      (persist_message sha1hex db thread_id platform₁ native_id parent₁ user₁ text₁
        created₁ reactions₁ metadata₁)
      thread_id platform₂ native_id parent₂ user₂ text₂ created₂ reactions₂ metadata₂ =
      db ++
        [{ thread_id := thread_id, platform := platform₁, source_msg_id := native_id,
           parent_msg_id := parent₂, author_user_id := user₂, text := text₂,
           text_hash := sha1hex text₂, reactions_json := reactions₂.getD [],
           metadata_json := persistMeta platform₂ native_id metadata₂,
           created_at := created₂ }] := by
    rw [h₁]
    unfold persist_message
    exact upsertRow_update_last _ _ _ _ db _ hdb ⟨rfl, rfl⟩
  rw [h₂]
  constructor
  · rw [List.filter_append]
    have hdbf : db.filter
        (fun row => row.thread_id = thread_id ∧ row.source_msg_id = native_id) = [] := by
      rw [List.filter_eq_nil_iff]
      intro row hrow
      simpa using hdb row hrow
    rw [hdbf]
    simp
  · intro row hrow h₁' h₂'
    rcases List.mem_append.mp hrow with hrow | hrow
    · exact absurd ⟨h₁', h₂'⟩ (hdb row hrow)
    · rcases List.mem_singleton.mp hrow with rfl
      exact ⟨rfl, rfl, rfl, rfl, rfl, rfl, rfl⟩

/-- Closed instance of C8: the same slack message ingested twice into an empty
store leaves one row with the second content. -/
theorem c8_idempotent_reingest_witness :
    (∀ row ∈ ([] : List Message), ¬(row.thread_id = 0 ∧ row.source_msg_id = "9".data))
    ∧ (((persist_message id
          (persist_message id [] 0 "slack".data "9".data none none "old".data 1 none [])
          0 "slack".data "9".data none none "new".data 2 none []).filter
        (fun row => row.thread_id = 0 ∧ row.source_msg_id = "9".data)).length = 1
      ∧ ∀ row ∈ persist_message id
          (persist_message id [] 0 "slack".data "9".data none none "old".data 1 none [])
          0 "slack".data "9".data none none "new".data 2 none [],
          row.thread_id = 0 → row.source_msg_id = "9".data →
            row.text = "new".data ∧ row.text_hash = id "new".data ∧
            row.parent_msg_id = none ∧ row.author_user_id = none ∧
            row.reactions_json = (none : Option (List (Str × Int))).getD [] ∧
            row.metadata_json = persistMeta "slack".data "9".data [] ∧
            row.created_at = 2) :=
  ⟨by simp, c8_idempotent_reingest id [] 0 "slack".data "9".data none none "old".data 1
    none [] "slack".data none none "new".data 2 none [] (by simp)⟩

/-- C9: `attach_links` resolves every evidence reference by canonical id
against the message index. Each of the four sections is mapped in place
(no item and no reference is removed or reordered); a reference whose
canonical id misses the index is returned unchanged — in particular its URL
is not populated — and a reference that hits message `msg` has its platform,
native id and canonical id overwritten from `msg` and its URL set to the
first non-empty of the metadata's `permalink`, `webUrl`, `webLink`, in that
priority. -/
theorem c9_attach_links (messages : List Message) (brief : CondenseResult) :
    ((attach_links messages brief).decisions =
        brief.decisions.map (attachItem (buildIndex messages))
      ∧ (attach_links messages brief).risks =
        brief.risks.map (attachItem (buildIndex messages))
      ∧ (attach_links messages brief).actions =
        brief.actions.map (attachItem (buildIndex messages))
      ∧ (attach_links messages brief).open_questions =
        brief.open_questions.map (attachItem (buildIndex messages)))
    ∧ (∀ it : ExtractedItem, (attachItem (buildIndex messages) it).supporting_msgs =
        it.supporting_msgs.map (updateRef (buildIndex messages))
      ∧ (attachItem (buildIndex messages) it).confidence = it.confidence)
    ∧ (∀ ref : SupportRef, (buildIndex messages).lookup (refCanonical ref) = none →
        updateRef (buildIndex messages) ref = ref)
    ∧ (∀ (ref : SupportRef) (msg : Message),
        (buildIndex messages).lookup (refCanonical ref) = some msg →
        (updateRef (buildIndex messages) ref).platform = msg.platform
        ∧ (updateRef (buildIndex messages) ref).native_id = msg.source_msg_id
        ∧ (updateRef (buildIndex messages) ref).msg_id =
            (match aget msg.metadata_json canonicalKey with
              | some v => pyStr v
              | none => refCanonical ref)
        ∧ (updateRef (buildIndex messages) ref).url = permalinkOf msg.metadata_json
        ∧ (updateRef (buildIndex messages) ref).quote = ref.quote) := by
  refine ⟨⟨rfl, rfl, rfl, rfl⟩, fun it => ⟨rfl, rfl⟩, ?_, ?_⟩
  · intro ref h
    simp only [updateRef]
    rw [h]
  · intro ref msg h
    simp only [updateRef]
    rw [h]
    exact ⟨rfl, rfl, rfl, rfl, rfl⟩

/-- Closed instance of C9: one matched and one unmatched reference. -/
theorem c9_attach_links_witness :
    ((buildIndex [mkMsg "slack".data "1".data "t".data
          [("permalink".data, .str "u1".data)]]).lookup
        (refCanonical (mkRef "slack".data "2".data "slack:2".data)) = none
      ∧ updateRef (buildIndex [mkMsg "slack".data "1".data "t".data
            [("permalink".data, .str "u1".data)]])
          (mkRef "slack".data "2".data "slack:2".data) =
        mkRef "slack".data "2".data "slack:2".data)
    ∧ (updateRef (buildIndex [mkMsg "slack".data "1".data "t".data
            [("permalink".data, .str "u1".data)]])
          (mkRef "slack".data "1".data "slack:1".data)).url
        = some "u1".data :=
  ⟨⟨by rfl,
    (c9_attach_links [mkMsg "slack".data "1".data "t".data
        [("permalink".data, .str "u1".data)]]
      { decisions := [], risks := [], actions := [], open_questions := [],
        rest := [] }).2.2.1
      (mkRef "slack".data "2".data "slack:2".data) (by rfl)⟩,
   by decide⟩

/-- C6 counterexample: a payload with no explicit `chatId`, no `chats`
resource token, and a non-empty `conversationId` is *not* classified as a
chat — the conversationId fallback is unreachable and the builder takes the
channel branch. -/
theorem c6_counterexample :
    (aget [("conversationId".data, PyVal.str "cv".data)] "chatId".data = none)
    ∧ (parsedFirst (parse_graph_resource "teams('t')/channels('c')/messages('m')".data)
        "chats".data = none)
    ∧ (otruthy (aget [("conversationId".data, PyVal.str "cv".data)]
        "conversationId".data) = true)
    ∧ ((build_teams_thread_ref "teams('t')/channels('c')/messages('m')".data
          [("conversationId".data, PyVal.str "cv".data)]).map
        (fun tr => ((tr.lookup "conversation_type".data).map pyStr,
          (tr.lookup "chat_id".data).map pyStr))
        = some (some "channel".data, none))
    ∧ ("channel".data : Str) ≠ "chat".data :=
  ⟨rfl, rfl, rfl, by decide, by decide⟩

/-- C6 as amended: chat-vs-channel is determined solely by the chain explicit
`chatId` field → parsed `chats` resource token; the `conversationId` fallback
inside the chat branch is unreachable. Whenever the builder returns a thread
reference: if the chain is truthy the reference is a chat whose `chat_id` is
the chain's value; if the chain is falsy the reference is a channel (even
when the payload carries a non-empty `conversationId`). -/
theorem c6_chat_channel_classification (resource : Str) (rd : List (Str × PyVal)) :
    ∀ tr, build_teams_thread_ref resource rd = some tr →
      (otruthy (teamsChatIdChain resource rd) = true →
        tr.lookup "conversation_type".data = some (.str "chat".data)
        ∧ tr.lookup "chat_id".data = teamsChatIdChain resource rd)
      ∧ (otruthy (teamsChatIdChain resource rd) = false →
        tr.lookup "conversation_type".data = some (.str "channel".data)) := by
  intro tr htr
  have hchain_def : teamsChatIdChain resource rd =
      pyOrV (aget rd "chatId".data)
        ((parsedFirst (parse_graph_resource resource) "chats".data).map PyVal.str) := rfl
  simp only [build_teams_thread_ref] at htr
  rw [← hchain_def] at htr
  by_cases hchain : otruthy (teamsChatIdChain resource rd)
  · rw [hchain] at htr
    simp only [if_true] at htr
    obtain ⟨v, hv, htv⟩ : ∃ v, teamsChatIdChain resource rd = some v ∧ truthy v = true := by
      cases hc : teamsChatIdChain resource rd with
      | none => rw [hc] at hchain; cases hchain
      | some v => exact ⟨v, rfl, by rw [hc] at hchain; simpa [otruthy] using hchain⟩
    rw [hv] at htr
    simp only [otruthy, htv, if_true] at htr
    refine ⟨fun _ => ?_, fun hfalse => by rw [hchain] at hfalse; exact Bool.noConfusion hfalse⟩
    split at htr
    · split at htr
      · rename_i mv heq
        injection htr with htr
        subst htr
        rcases hev : aget rd ['i', 'd'] with _ | ev
        · simp only []
          constructor
          · rw [lookup_dset_ne _ _ (by decide), lookup_dset_self]
          · rw [lookup_dset_ne _ _ (by decide), lookup_dset_ne _ _ (by decide),
              lookup_dset_self, hv]
        · simp only []
          by_cases hif : truthy ev = true ∧ pvBeq ev mv = false
          · rw [if_pos hif]
            constructor
            · rw [lookup_dset_ne _ _ (by decide), lookup_dset_ne _ _ (by decide),
                lookup_dset_self]
            · rw [lookup_dset_ne _ _ (by decide), lookup_dset_ne _ _ (by decide),
                lookup_dset_ne _ _ (by decide), lookup_dset_self, hv]
          · rw [if_neg hif]
            constructor
            · rw [lookup_dset_ne _ _ (by decide), lookup_dset_self]
            · rw [lookup_dset_ne _ _ (by decide), lookup_dset_ne _ _ (by decide),
                lookup_dset_self, hv]
      · exact Option.noConfusion htr
    · exact Option.noConfusion htr
  · have hchain' : otruthy (teamsChatIdChain resource rd) = false := by
      simpa using hchain
    rw [hchain'] at htr
    simp only [Bool.false_eq_true, if_false] at htr
    rw [if_neg (by decide)] at htr
    refine ⟨fun htrue => by rw [hchain'] at htrue; exact Bool.noConfusion htrue,
      fun _ => ?_⟩
    split at htr
    · exact Option.noConfusion htr
    · rename_i tr₁ heq₁
      split at heq₁
      · split at heq₁
        · rename_i tv cv
          injection heq₁ with heq₁
          subst heq₁
          split at htr
          · split at htr
            · rename_i mv heq
              injection htr with htr
              subst htr
              rcases hev : aget rd ['i', 'd'] with _ | ev
              · simp only []
                rw [lookup_dset_ne _ _ (by decide), lookup_dset_self]
              · simp only []
                by_cases hif : truthy ev = true ∧ pvBeq ev mv = false
                · rw [if_pos hif]
                  rw [lookup_dset_ne _ _ (by decide), lookup_dset_ne _ _ (by decide),
                    lookup_dset_self]
                · rw [if_neg hif]
                  rw [lookup_dset_ne _ _ (by decide), lookup_dset_self]
            · exact Option.noConfusion htr
          · exact Option.noConfusion htr
        · exact Option.noConfusion heq₁
      · exact Option.noConfusion heq₁

/-- Closed instance of the amended C6 on a chat notification resolved through
the `chats` resource token. -/
theorem c6_chat_channel_classification_witness :
    (build_teams_thread_ref "chats('19:c')/messages('m1')".data [] = some chatExampleRef)
    ∧ ((otruthy (teamsChatIdChain "chats('19:c')/messages('m1')".data []) = true →
        chatExampleRef.lookup "conversation_type".data = some (.str "chat".data)
          ∧ chatExampleRef.lookup "chat_id".data =
            teamsChatIdChain "chats('19:c')/messages('m1')".data [])
      ∧ (otruthy (teamsChatIdChain "chats('19:c')/messages('m1')".data []) = false →
        chatExampleRef.lookup "conversation_type".data = some (.str "channel".data))) := by
  constructor
  · rfl
  · exact c6_chat_channel_classification "chats('19:c')/messages('m1')".data []
      chatExampleRef (by rfl)

lemma entity_facts : ∀ n ∈ graphResourceEntities, n ≠ [] ∧ '/' ∉ n ∧ '(' ∉ n := by
  decide

lemma segTokens_ok {p : Str × SegForm} (hn : p.1 ∈ graphResourceEntities)
    (hf : segFormOk p.2) : ∀ t ∈ segTokens p, t ≠ [] ∧ '/' ∉ t := by
  obtain ⟨n, form⟩ := p
  obtain ⟨hne, hslash, -⟩ := entity_facts n hn
  cases form with
  | bare v =>
    intro t ht
    rcases List.mem_cons.mp ht with rfl | ht
    · exact ⟨hne, hslash⟩
    · rcases List.mem_singleton.mp ht with rfl
      exact ⟨hf.1, hf.2.1⟩
  | squot v =>
    intro t ht
    rcases List.mem_singleton.mp ht with rfl
    refine ⟨by simp, ?_⟩
    intro hmem
    simp only [List.mem_append, List.mem_cons] at hmem
    rcases hmem with h | h | h | h | h
    · exact hslash h
    · cases h
    · cases h
    · exact hf h
    · simp at h
  | dquot v =>
    intro t ht
    rcases List.mem_singleton.mp ht with rfl
    refine ⟨by simp, ?_⟩
    intro hmem
    simp only [List.mem_append, List.mem_cons] at hmem
    rcases hmem with h | h | h | h | h
    · exact hslash h
    · cases h
    · cases h
    · exact hf h
    · simp at h

lemma splitOnChar_not_mem (c : Char) (s : Str) (h : c ∉ s) : splitOnChar c s = [s] := by
  induction s with
  | nil => rfl
  | cons a t ih =>
    have hac : ¬(a = c) := fun he => h (he ▸ List.mem_cons_self _ _)
    have hct : c ∉ t := fun hm => h (List.mem_cons_of_mem _ hm)
    simp only [splitOnChar, ih hct]
    rw [if_neg hac]

lemma splitOnChar_append (c : Char) (s t : Str) (h : c ∉ s) :
    splitOnChar c (s ++ c :: t) = s :: splitOnChar c t := by
  induction s with
  | nil =>
    simp [splitOnChar]
  | cons a s' ih =>
    have hac : ¬(a = c) := fun he => h (he ▸ List.mem_cons_self _ _)
    have hcs : c ∉ s' := fun hm => h (List.mem_cons_of_mem _ hm)
    simp only [List.cons_append, splitOnChar, List.append_eq, ih hcs]
    rw [if_neg hac]

lemma joinSegs_ne_nil : ∀ (t : Str) (rest : List Str), t ≠ [] →
    joinSegs (t :: rest) ≠ [] := by
  intro t rest ht
  cases rest with
  | nil => exact ht
  | cons t' ts =>
    simp only [joinSegs]
    intro he
    simp at he

lemma splitOnChar_joinSegs : ∀ (toks : List Str), toks ≠ [] →
    (∀ t ∈ toks, '/' ∉ t) → splitOnChar '/' (joinSegs toks) = toks := by
  intro toks
  induction toks with
  | nil => intro h; cases h rfl
  | cons t rest ih =>
    intro _ hmem
    cases rest with
    | nil => exact splitOnChar_not_mem '/' t (hmem t (List.mem_cons_self _ _))
    | cons t' ts =>
      have : joinSegs (t :: t' :: ts) = t ++ '/' :: joinSegs (t' :: ts) := by
        simp [joinSegs]
      rw [this, splitOnChar_append _ _ _ (hmem t (List.mem_cons_self _ _))]
      rw [ih (by simp) (fun x hx => hmem x (List.mem_cons_of_mem _ hx))]

lemma head?_joinSegs (t : Str) (rest : List Str) (ht : t ≠ []) :
    (joinSegs (t :: rest)).head? = t.head? := by
  cases rest with
  | nil => rfl
  | cons t' ts =>
    simp only [joinSegs]
    rw [List.head?_append_of_ne_nil _ (by simp : t ++ ['/'] ≠ [])]
    exact List.head?_append_of_ne_nil _ ht

lemma getLast?_joinSegs : ∀ (toks : List Str), (∀ t ∈ toks, t ≠ []) →
    toks ≠ [] → ∃ last ∈ toks, (joinSegs toks).getLast? = last.getLast? := by
  intro toks
  induction toks with
  | nil => intro _ h; cases h rfl
  | cons t rest ih =>
    intro hne _
    cases rest with
    | nil => exact ⟨t, List.mem_cons_self _ _, rfl⟩
    | cons t' ts =>
      obtain ⟨last, hmem, heq⟩ := ih (fun x hx => hne x (List.mem_cons_of_mem _ hx))
        (by simp)
      refine ⟨last, List.mem_cons_of_mem _ hmem, ?_⟩
      simp only [joinSegs]
      rw [List.getLast?_append_of_ne_nil _
        (joinSegs_ne_nil t' ts (hne t' (List.mem_cons_of_mem _ (List.mem_cons_self _ _))))]
      exact heq

lemma takeDrop_paren (n t : Str) (hn : '(' ∉ n) :
    ((n ++ ('(' :: t)).takeWhile (fun c => c ≠ '(') = n)
    ∧ ((n ++ ('(' :: t)).dropWhile (fun c => c ≠ '(') = '(' :: t) := by
  induction n with
  | nil => constructor <;> simp [List.takeWhile, List.dropWhile]
  | cons a n' ih =>
    have ha : a ≠ '(' := fun he => hn (he ▸ List.mem_cons_self _ _)
    have h' : '(' ∉ n' := fun hm => hn (List.mem_cons_of_mem _ hm)
    obtain ⟨h1, h2⟩ := ih h'
    constructor
    · rw [List.cons_append, List.takeWhile_cons, if_pos (decide_eq_true ha), h1]
    · rw [List.cons_append, List.dropWhile_cons, if_pos (decide_eq_true ha)]
      exact h2

lemma parseGo_paren (token : Str) (R : List Str) (parsed : List (Str × List Str))
    (hcond : '(' ∈ token ∧ token.getLast? = some ')') :
    parseGo (token :: R) parsed =
      parseGo R (dappend parsed (token.takeWhile (fun c => c ≠ '('))
        (pyUnquote
          (if (((token.dropWhile (fun c => c ≠ '(')).tail).dropLast).head? = some '\''
              ∧ (((token.dropWhile (fun c => c ≠ '(')).tail).dropLast).getLast? = some '\''
            then ((((token.dropWhile (fun c => c ≠ '(')).tail).dropLast).drop 1).dropLast
            else ((token.dropWhile (fun c => c ≠ '(')).tail).dropLast))) := by
  cases R with
  | nil =>
    simp only [parseGo]
    rw [if_pos hcond]
  | cons nx rx =>
    simp only [parseGo]
    rw [if_pos hcond]

lemma parseGo_gen : ∀ (pairs : List (Str × SegForm)) (parsed : List (Str × List Str)),
    (∀ p ∈ pairs, p.1 ∈ graphResourceEntities ∧ segFormOk p.2) →
    parseGo ((pairs.map segTokens).flatten) parsed =
      (pairs.map (fun p => (p.1, expectedVal p.2))).foldl
        (fun m q => dappend m q.1 q.2) parsed := by
  intro pairs
  induction pairs with
  | nil => intro parsed _; rfl
  | cons p rest ih =>
    intro parsed hok
    obtain ⟨hn, hf⟩ := hok p (List.mem_cons_self _ _)
    have hrest := fun q hq => hok q (List.mem_cons_of_mem _ hq)
    obtain ⟨n, form⟩ := p
    obtain ⟨hne, hslash, hparen⟩ := entity_facts n hn
    cases form with
    | bare v =>
      simp only [List.map_cons, List.flatten_cons, segTokens, List.cons_append,
        List.nil_append, List.foldl_cons]
      simp only [parseGo]
      rw [if_neg (fun hc => hparen hc.1)]
      rw [if_pos ⟨hf.1, hf.2.2⟩]
      exact ih _ hrest
    | squot v =>
      simp only [List.map_cons, List.flatten_cons, segTokens, List.cons_append,
        List.nil_append, List.foldl_cons]
      have hlast : (n ++ ('(' :: '\'' :: (v ++ ['\'', ')']))).getLast? = some ')' := by
        rw [List.getLast?_append_of_ne_nil _ (by simp)]
        rw [show ('(' :: '\'' :: (v ++ ['\'', ')']))
            = ('(' :: '\'' :: (v ++ ['\''])) ++ [')'] by simp]
        exact List.getLast?_concat _
      rw [parseGo_paren _ _ _ ⟨by simp, hlast⟩]
      rw [(takeDrop_paren n ('\'' :: (v ++ ['\'', ')'])) hparen).1,
        (takeDrop_paren n ('\'' :: (v ++ ['\'', ')'])) hparen).2]
      simp only [List.tail_cons]
      rw [show ('\'' :: (v ++ ['\'', ')'])).dropLast = '\'' :: (v ++ ['\'']) by
        rw [show ('\'' :: (v ++ ['\'', ')'])) = ('\'' :: (v ++ ['\''])) ++ [')'] by simp]
        exact List.dropLast_concat ..]
      rw [if_pos ⟨rfl, by
        rw [show ('\'' :: (v ++ ['\''])) = (('\'' :: v) ++ ['\'']) by simp]
        exact List.getLast?_concat ..⟩]
      simp only [List.drop_one, List.tail_cons]
      rw [show (v ++ ['\'']).dropLast = v from List.dropLast_concat ..]
      exact ih _ hrest
    | dquot v =>
      simp only [List.map_cons, List.flatten_cons, segTokens, List.cons_append,
        List.nil_append, List.foldl_cons]
      have hlast : (n ++ ('(' :: '"' :: (v ++ ['"', ')']))).getLast? = some ')' := by
        rw [List.getLast?_append_of_ne_nil _ (by simp)]
        rw [show ('(' :: '"' :: (v ++ ['"', ')']))
            = ('(' :: '"' :: (v ++ ['"'])) ++ [')'] by simp]
        exact List.getLast?_concat _
      rw [parseGo_paren _ _ _ ⟨by simp, hlast⟩]
      rw [(takeDrop_paren n ('"' :: (v ++ ['"', ')'])) hparen).1,
        (takeDrop_paren n ('"' :: (v ++ ['"', ')'])) hparen).2]
      simp only [List.tail_cons]
      rw [show ('"' :: (v ++ ['"', ')'])).dropLast = '"' :: (v ++ ['"']) by
        rw [show ('"' :: (v ++ ['"', ')'])) = ('"' :: (v ++ ['"'])) ++ [')'] by simp]
        exact List.dropLast_concat ..]
      rw [if_neg (fun hc => by
        have := hc.1
        simp at this)]
      have hexp : expectedVal (SegForm.dquot v) = pyUnquote ('"' :: (v ++ ['"'])) := by
        simp [expectedVal]
      rw [← hexp]
      exact ih _ hrest

lemma pyStripChar_id (c : Char) (s : Str)
    (hh : ∀ ch, s.head? = some ch → ch ≠ c)
    (hl : ∀ ch, s.getLast? = some ch → ch ≠ c) : pyStripChar c s = s := by
  unfold pyStripChar
  rw [dropWhile_eq_self_of_head _ _ (fun ch hch => decide_eq_false (hh ch hch))]
  rw [dropWhile_eq_self_of_head _ _ (fun ch hch => by
    rw [List.head?_reverse] at hch
    exact decide_eq_false (hl ch hch))]
  exact List.reverse_reverse s

/-- C5 counterexample: a double-quoted value keeps its surrounding quotes.
Parsing the generated path `chats("abc")` yields the value `"abc"` with the
quotes retained, not the quote-stripped `abc` the round-trip property
demands. -/
theorem c5_counterexample :
    buildPath [("chats".data, SegForm.dquot "abc".data)] = "chats(\"abc\")".data
    ∧ parse_graph_resource "chats(\"abc\")".data =
        [("chats".data, [['"'] ++ "abc".data ++ ['"']])]
    ∧ parse_graph_resource "chats(\"abc\")".data ≠
        groupVals [("chats".data, "abc".data)] :=
  ⟨by decide, by decide, by decide⟩

/-- C5 as amended: for every generated path of alternating known-entity-name
and value segments, parsing recovers every value, percent-decoded, in order
under its correct entity name (repeated names accumulate); bare and
single-quoted values come back without quotes, but a double-quoted value
retains its surrounding double quotes. -/
theorem c5_parse_roundtrip (pairs : List (Str × SegForm))
    (hok : ∀ p ∈ pairs, p.1 ∈ graphResourceEntities ∧ segFormOk p.2) :
    parse_graph_resource (buildPath pairs) =
      groupVals (pairs.map (fun p => (p.1, expectedVal p.2))) := by
  have htoksOk : ∀ t ∈ (pairs.map segTokens).flatten, t ≠ [] ∧ '/' ∉ t := by
    intro t ht
    rcases List.mem_flatten.mp ht with ⟨l, hl, htl⟩
    rcases List.mem_map.mp hl with ⟨q, hq', rfl⟩
    exact segTokens_ok (hok q hq').1 (hok q hq').2 t htl
  have key : parse_graph_resource (buildPath pairs) =
      parseGo ((pairs.map segTokens).flatten) [] := by
    unfold parse_graph_resource buildPath
    cases hfe : (pairs.map segTokens).flatten with
    | nil => rfl
    | cons t₀ trest =>
      have h' : ∀ t ∈ t₀ :: trest, t ≠ [] ∧ '/' ∉ t := by
        rw [← hfe]
        exact htoksOk
      have ht₀ : t₀ ≠ [] := (h' t₀ (List.mem_cons_self _ _)).1
      have hstrip : pyStripChar '/' (joinSegs (t₀ :: trest)) = joinSegs (t₀ :: trest) := by
        apply pyStripChar_id
        · intro ch hch
          rw [head?_joinSegs _ _ ht₀] at hch
          exact fun he => (h' t₀ (List.mem_cons_self _ _)).2
            (he ▸ List.mem_of_mem_head? (by simpa using hch))
        · intro ch hch
          obtain ⟨last, hmem, heq⟩ := getLast?_joinSegs (t₀ :: trest)
            (fun t ht => (h' t ht).1) (by simp)
          rw [heq] at hch
          exact fun he => (h' last hmem).2
            (he ▸ List.mem_of_mem_getLast? (by simpa using hch))
      rw [hstrip, splitOnChar_joinSegs _ (by simp) (fun t ht => (h' t ht).2)]
      rw [List.filter_eq_self.mpr (fun t ht => decide_eq_true ((h' t ht).1))]
  rw [key, parseGo_gen pairs [] hok]
  rfl

/-- Closed instance of the amended C5: bare, single-quoted (percent-encoded)
and repeated entity names round-trip. -/
theorem c5_parse_roundtrip_witness :
    (∀ p ∈ [("teams".data, SegForm.squot "t%2D1".data),
        ("channels".data, SegForm.bare "c1".data),
        ("teams".data, SegForm.squot "x".data)],
      p.1 ∈ graphResourceEntities ∧ segFormOk p.2)
    ∧ parse_graph_resource (buildPath [("teams".data, SegForm.squot "t%2D1".data),
        ("channels".data, SegForm.bare "c1".data),
        ("teams".data, SegForm.squot "x".data)]) =
      groupVals ([("teams".data, SegForm.squot "t%2D1".data),
        ("channels".data, SegForm.bare "c1".data),
        ("teams".data, SegForm.squot "x".data)].map
          (fun p => (p.1, expectedVal p.2))) :=
  ⟨by decide,
    c5_parse_roundtrip [("teams".data, SegForm.squot "t%2D1".data),
      ("channels".data, SegForm.bare "c1".data),
      ("teams".data, SegForm.squot "x".data)] (by decide)⟩

end ThreadCondenser
